import Mathlib

/-!
Verification of `src/MVP/quasi_core.rs` (QUASI core).

The Rust module defines three structs — `QToken`, `QuasiField`, `QuasiState` —
and four operations on `QuasiState`: `new`, `observe`, `measure_coherence`,
`invert`, plus a `Display` implementation whose state tag is `"Observed"` or
`"Superposed"`.

Embedding choices:
* For the structural and arithmetic-shape claims, Rust `f64` magnitudes
  are modelled as `ℚ` with exact arithmetic (every finite IEEE-754
  binary64 value is a rational number, so the quantifiers range over all
  finite doubles).
* Claims whose truth depends on binary64 rounding, overflow, or the
  special values NaN and infinity are settled against an exact model of
  IEEE-754 binary64 defined further below: round-to-nearest-even at 53
  bits over `ℚ`, extended to an `F64` carrier with infinities and NaN,
  with the source re-embedded over that carrier.
* The two mutating methods (`observe`, `invert`) are modelled by explicit
  state passing: `observe` returns the new state together with the `f64`
  the Rust method returns.
-/

/-- Mirror of `QToken` from quasi_core.rs lines 13-17: a label (`qtype`) and an `f64`
magnitude (`value`).  The spec calls this a Token with `label`/`magnitude`. -/
structure QToken where
  qtype : String
  value : ℚ
deriving DecidableEq, Repr

/-- Mirror of `QuasiField` from quasi_core.rs lines 20-25: the matter/antimatter pair
(spec: primary/secondary Tokens) and the derived `coherence`. -/
structure QuasiField where
  matter : QToken
  antimatter : QToken
  coherence : ℚ
deriving DecidableEq, Repr

/-- Mirror of `QuasiState` from quasi_core.rs lines 28-33 (spec: DualState). -/
structure QuasiState where
  id : String
  field : QuasiField
  observed : Bool
deriving DecidableEq, Repr

/-- Constructor `QuasiState::new` from quasi_core.rs lines 37-54: both tokens get the same
`qtype`, `coherence := 1 - |matter - antimatter| / (|matter| + |antimatter| + 1)`,
and `observed := false`. -/
def QuasiState.new (id qtype : String) (matter antimatter : ℚ) : QuasiState :=
  { id := id
    field :=
      { matter := { qtype := qtype, value := matter }
        antimatter := { qtype := qtype, value := antimatter }
        coherence := 1 - (|matter - antimatter| / (|matter| + |antimatter| + 1)) }
    observed := false }

/-- Method `QuasiState::observe` from quasi_core.rs lines 57-61: sets `observed` and
returns `(matter.value + antimatter.value) / 2.0`.  Modelled as
state-passing: the pair is (state after the call, returned value). -/
def QuasiState.observe (s : QuasiState) : QuasiState × ℚ :=
  ({ s with observed := true }, (s.field.matter.value + s.field.antimatter.value) / 2)

/-- Method `QuasiState::measure_coherence` from quasi_core.rs lines 64-66. -/
def QuasiState.measure_coherence (s : QuasiState) : ℚ :=
  s.field.coherence

/-- Method `QuasiState::invert` from quasi_core.rs lines 69-71: swaps the whole
`matter` and `antimatter` tokens (`std::mem::swap`); nothing else changes. -/
def QuasiState.invert (s : QuasiState) : QuasiState :=
  { s with field := { s.field with matter := s.field.antimatter, antimatter := s.field.matter } }

/-- The state tag computed by the `Display` impl, quasi_core.rs line 76:
`"Observed"` when the flag is set, otherwise `"Superposed"`.  This is the
only part of `Render()` the behavioural contract covers (the spec calls the
surrounding decoration cosmetic). -/
def QuasiState.obs_state (s : QuasiState) : String :=
  if s.observed then "Observed" else "Superposed"

/-- The four operations a caller can apply to an existing `QuasiState`. -/
inductive Op where
  | observe
  | measure_coherence
  | invert
  | render
deriving DecidableEq, Repr

/-- Effect of one operation on the state (returned values discarded):
`observe` mutates the flag, `invert` swaps the tokens,
`measure_coherence` and `render` are read-only. -/
def QuasiState.step (s : QuasiState) : Op → QuasiState
  | Op.observe => (s.observe).1
  | Op.measure_coherence => s
  | Op.invert => s.invert
  | Op.render => s

/-- State after an arbitrary sequence of calls. -/
def QuasiState.run (s : QuasiState) (ops : List Op) : QuasiState :=
  ops.foldl QuasiState.step s

-- Helper lemmas shared by the claim theorems.

theorem step_coherence (s : QuasiState) (op : Op) :
    (s.step op).field.coherence = s.field.coherence := by
  cases op <;> rfl

theorem run_coherence (ops : List Op) (s : QuasiState) :
    (s.run ops).field.coherence = s.field.coherence := by
  induction ops generalizing s with
  | nil => rfl
  | cons op ops ih =>
      show ((s.step op).run ops).field.coherence = s.field.coherence
      rw [ih, step_coherence]

theorem step_observed_mono (s : QuasiState) (op : Op) (h : s.observed = true) :
    (s.step op).observed = true := by
  cases op <;> simp [QuasiState.step, QuasiState.observe, QuasiState.invert, h]

theorem run_observed_mono (ops : List Op) (s : QuasiState) (h : s.observed = true) :
    (s.run ops).observed = true := by
  induction ops generalizing s with
  | nil => exact h
  | cons op ops ih => exact ih ((s.step op)) (step_observed_mono s op h)

theorem step_observed_stays_false (s : QuasiState) (op : Op) (hop : op ≠ Op.observe)
    (h : s.observed = false) : (s.step op).observed = false := by
  cases op with
  | observe => exact absurd rfl hop
  | measure_coherence => exact h
  | invert => exact h
  | render => exact h

theorem run_observed_stays_false (ops : List Op) (s : QuasiState)
    (hops : Op.observe ∉ ops) (h : s.observed = false) :
    (s.run ops).observed = false := by
  induction ops generalizing s with
  | nil => exact h
  | cons op ops ih =>
      have hop : op ≠ Op.observe := fun he => hops (he ▸ List.mem_cons_self op ops)
      have hrest : Op.observe ∉ ops := fun hm => hops (List.mem_cons_of_mem op hm)
      exact ih ((s.step op)) hrest (step_observed_stays_false s op hop h)

theorem step_qtypes (s : QuasiState) (op : Op)
    (h : s.field.matter.qtype = s.field.antimatter.qtype) :
    (s.step op).field.matter.qtype = (s.step op).field.antimatter.qtype := by
  cases op with
  | observe => exact h
  | measure_coherence => exact h
  | invert => exact h.symm
  | render => exact h

theorem run_qtypes (ops : List Op) (s : QuasiState)
    (h : s.field.matter.qtype = s.field.antimatter.qtype) :
    (s.run ops).field.matter.qtype = (s.run ops).field.antimatter.qtype := by
  induction ops generalizing s with
  | nil => exact h
  | cons op ops ih => exact ih ((s.step op)) (step_qtypes s op h)

theorem coherence_formula_bounds (a b : ℚ) :
    0 ≤ 1 - |a - b| / (|a| + |b| + 1) ∧ 1 - |a - b| / (|a| + |b| + 1) ≤ 1 := by
  have hD : (0 : ℚ) < |a| + |b| + 1 := by positivity
  have htri : |a - b| ≤ |a| + |b| := by
    simpa [sub_eq_add_neg, abs_neg] using abs_add a (-b)
  constructor
  · have h1 : |a - b| / (|a| + |b| + 1) ≤ 1 :=
      (div_le_one hD).mpr (le_trans htri (by linarith))
    linarith
  · have h0 : 0 ≤ |a - b| / (|a| + |b| + 1) := div_nonneg (abs_nonneg _) hD.le
    linarith

-- Claim theorems.

/-- C1: for every id, label and magnitudes a, b, `QuasiState::new` stores
`coherence = 1 - (|a - b| / (|a| + |b| + 1))`, sets `observed` to `false`,
and gives both the matter (primary) and antimatter (secondary) token the
same label. -/
theorem C1_construct (id label : String) (a b : ℚ) :
    (QuasiState.new id label a b).field.coherence
        = 1 - (|a - b| / (|a| + |b| + 1)) ∧
    (QuasiState.new id label a b).observed = false ∧
    (QuasiState.new id label a b).field.matter.qtype = label ∧
    (QuasiState.new id label a b).field.antimatter.qtype = label := by
  exact ⟨rfl, rfl, rfl, rfl⟩

/-- C3: `observe` sets the flag, returns the mean of the two magnitudes
computed from the current fields, changes nothing else (id and the whole
field, hence both tokens and the coherence, are unchanged), and a second
call returns the same value and leaves the state exactly as after the
first call. -/
theorem C3_observe (s : QuasiState) :
    (s.observe).1.observed = true ∧
    (s.observe).2 = (s.field.matter.value + s.field.antimatter.value) / 2 ∧
    (s.observe).1.id = s.id ∧
    (s.observe).1.field = s.field ∧
    ((s.observe).1.observe) = ((s.observe).1, (s.observe).2) := by
  exact ⟨rfl, rfl, rfl, rfl, rfl⟩

/-- C4: `invert` is an involution — applying it twice restores the state
field-wise (id, observed flag, coherence, and both tokens with their
labels and magnitudes). -/
theorem C4_invert_involution (s : QuasiState) :
    (s.invert).invert = s := by
  rfl

/-- C5: a single `invert` swaps the two tokens whole and leaves `id`,
`observed` and the stored `coherence` untouched, so `measure_coherence`
returns the same value before and after the inversion. -/
theorem C5_coherence_invert_invariant (s : QuasiState) :
    (s.invert).measure_coherence = s.measure_coherence ∧
    (s.invert).field.coherence = s.field.coherence ∧
    (s.invert).field.matter = s.field.antimatter ∧
    (s.invert).field.antimatter = s.field.matter ∧
    (s.invert).id = s.id ∧
    (s.invert).observed = s.observed := by
  exact ⟨rfl, rfl, rfl, rfl, rfl, rfl⟩

/-- C6: `observed` is `false` at construction and the rendered tag is
`"Superposed"`; it stays `false` (tag `"Superposed"`) under any sequence
of calls that contains no `observe`; and once an `observe` has happened,
`observed` is `true` and the tag is `"Observed"` in every subsequently
reachable state. -/
theorem C6_observed_one_way (id label : String) (a b : ℚ) (pre post : List Op) :
    (QuasiState.new id label a b).observed = false ∧
    (QuasiState.new id label a b).obs_state = "Superposed" ∧
    (Op.observe ∉ pre →
      ((QuasiState.new id label a b).run pre).observed = false ∧
      ((QuasiState.new id label a b).run pre).obs_state = "Superposed") ∧
    (((((QuasiState.new id label a b).run pre).observe).1.run post).observed = true ∧
      ((((QuasiState.new id label a b).run pre).observe).1.run post).obs_state
          = "Observed") := by
  refine ⟨rfl, rfl, fun hpre => ?_, ?_⟩
  · have h := run_observed_stays_false pre (QuasiState.new id label a b) hpre rfl
    exact ⟨h, by simp [QuasiState.obs_state, h]⟩
  · have h := run_observed_mono post
      (((QuasiState.new id label a b).run pre).observe).1 rfl
    exact ⟨h, by simp [QuasiState.obs_state, h]⟩

/-- C6 witness: the general theorem instantiated at concrete inputs, with
the no-observe-in-prefix hypothesis discharged for the sequence
`[invert, render]`. -/
theorem C6_observed_one_way_witness :
    ((QuasiState.new "iceberg_01" "energy" 42 (-209/5)).run
        [Op.invert, Op.render]).observed = false ∧
    ((((QuasiState.new "iceberg_01" "energy" 42 (-209/5)).run
        [Op.invert, Op.render]).observe).1.run [Op.invert]).obs_state = "Observed" := by
  have h := C6_observed_one_way "iceberg_01" "energy" 42 (-209/5)
    [Op.invert, Op.render] [Op.invert]
  exact ⟨(h.2.2.1 (by decide)).1, h.2.2.2.2⟩

/-- C9: the value `observe` returns is invariant under `invert`, because the
mean of the two magnitudes is symmetric in the pair. -/
theorem C9_observe_invert_invariant (s : QuasiState) :
    ((s.invert).observe).2 = (s.observe).2 := by
  show (s.field.antimatter.value + s.field.matter.value) / 2
      = (s.field.matter.value + s.field.antimatter.value) / 2
  rw [add_comm]

/-- C10: in every state reachable from a constructed state by any sequence
of calls, the matter token's label equals the antimatter token's label:
construction gives both the same label and every operation (including
`invert`, which swaps the tokens whole) preserves the equality. -/
theorem C10_labels_agree (id label : String) (a b : ℚ) (ops : List Op) :
    ((QuasiState.new id label a b).run ops).field.matter.qtype
        = ((QuasiState.new id label a b).run ops).field.antimatter.qtype := by
  exact run_qtypes ops (QuasiState.new id label a b) rfl

/-!
Exact model of IEEE-754 binary64 arithmetic, used for the one claim whose
truth depends on rounding: the Rust demo (quasi_core.rs lines 92-96)
evaluates `observe` on the `f64` literals `42.0` and `-41.8`.  Every
binary64 value in the normal range is a rational `m * 2 ^ (e - 52)` with
`2 ^ 52 ≤ |m| < 2 ^ 53`, and every Rust `f64` operation rounds its exact
rational result to the nearest such value, ties to even.  The definitions
below implement exactly that (for nonzero results in the normal,
non-overflowing range, which covers every intermediate value of the demo).
-/

/-- Fuel-driven binary logarithm on `ℕ` (structural recursion so that the
kernel can evaluate it): with enough fuel, `nlog2Aux fuel n` is `⌊log₂ n⌋`
for `n ≥ 1`. -/
def nlog2Aux : Nat → Nat → Nat
  | 0, _ => 0
  | fuel + 1, n => if n ≤ 1 then 0 else nlog2Aux fuel (n / 2) + 1

/-- Floor base-2 logarithm, `⌊log₂ n⌋` for `n ≥ 1` (fuel `n` always suffices). -/
def nlog2 (n : Nat) : Nat := nlog2Aux n n

/-- Integer powers of two in `ℚ`. -/
def pow2 (e : ℤ) : ℚ := (2 : ℚ) ^ e

/-- Binary exponent of a positive rational: the unique `e` with
`2 ^ e ≤ q < 2 ^ (e + 1)`.  From `2 ^ k ≤ num < 2 ^ (k + 1)` and
`2 ^ l ≤ den < 2 ^ (l + 1)` the exponent is `k - l` or `k - l - 1`,
decided by one comparison. -/
def qexp (q : ℚ) : ℤ :=
  if q < pow2 ((nlog2 q.num.natAbs : ℤ) - (nlog2 q.den : ℤ))
  then (nlog2 q.num.natAbs : ℤ) - (nlog2 q.den : ℤ) - 1
  else (nlog2 q.num.natAbs : ℤ) - (nlog2 q.den : ℤ)

/-- Round a rational to the nearest integer, ties to even. -/
def rInt (m : ℚ) : ℤ :=
  if m - ⌊m⌋ < 1/2 then ⌊m⌋
  else if 1/2 < m - ⌊m⌋ then ⌊m⌋ + 1
  else if ⌊m⌋ % 2 = 0 then ⌊m⌋ else ⌊m⌋ + 1

/-- Round `q` to the grid of multiples of `2 ^ k`, nearest, ties to even. -/
def rneAt (q : ℚ) (k : ℤ) : ℚ := (rInt (q / pow2 k) : ℚ) * pow2 k

/-- Round a positive rational to 53 significant bits: the unit in the last
place of a binary64 value in `[2 ^ e, 2 ^ (e + 1))` is `2 ^ (e - 52)`. -/
def rnePos (q : ℚ) : ℚ := rneAt q (qexp q - 52)

/-- IEEE-754 binary64 round-to-nearest-even for results in the normal,
non-overflowing range; zero and negative arguments by symmetry. -/
def rne (q : ℚ) : ℚ :=
  if q = 0 then 0 else if q < 0 then -rnePos (-q) else rnePos q

/-- Correctly rounded binary64 addition. -/
def add64 (a b : ℚ) : ℚ := rne (a + b)

/-- Correctly rounded binary64 division. -/
def div64 (a b : ℚ) : ℚ := rne (a / b)

/-- Value denoted by a decimal `f64` literal in the Rust source: the
literal's exact value rounded to binary64. -/
def lit64 (q : ℚ) : ℚ := rne q

/-- The `f64` the demo's first `observe()` call returns
(quasi_core.rs lines 60 and 92): the binary64 evaluation of
`(matter + antimatter) / 2.0` at `matter = 42.0`,
`antimatter = -41.8` (exact value `-209/5`). -/
def demo_observe64 : ℚ := div64 (add64 (lit64 42) (lit64 (-209/5))) (lit64 2)

-- Evaluation lemmas for the rounding model.

theorem rnePos_eval (q : ℚ) (n : ℤ) (d : ℕ) (e fl r : ℤ)
    (hnum : q.num = n) (hden : q.den = d)
    (he : (if q < pow2 ((nlog2 n.natAbs : ℤ) - (nlog2 d : ℤ))
           then (nlog2 n.natAbs : ℤ) - (nlog2 d : ℤ) - 1
           else (nlog2 n.natAbs : ℤ) - (nlog2 d : ℤ)) = e)
    (hfl : ⌊q / pow2 (e - 52)⌋ = fl)
    (hr : (if q / pow2 (e - 52) - fl < 1/2 then fl
           else if 1/2 < q / pow2 (e - 52) - fl then fl + 1
           else if fl % 2 = 0 then fl else fl + 1) = r) :
    rnePos q = r * pow2 (e - 52) := by
  unfold rnePos rneAt rInt qexp
  rw [hnum, hden, he, hfl, hr]

theorem num_of_418 : ((209 : ℚ)/5).num = 209 := by
  have h : ((209 : ℚ)/5) = ((209 : ℤ) : ℚ) / ((5 : ℤ) : ℚ) := by norm_num
  rw [h, Rat.num_div_eq_of_coprime (by norm_num) (by norm_num)]

theorem den_of_418 : ((209 : ℚ)/5).den = 5 := by
  have h : ((209 : ℚ)/5) = ((209 : ℤ) : ℚ) / ((5 : ℤ) : ℚ) := by norm_num
  have h2 := Rat.den_div_eq_of_coprime (a := 209) (b := 5) (by norm_num) (by norm_num)
  rw [h]
  exact_mod_cast h2

/-- Rounding `41.8 = 209/5` to binary64 gives `5882827013252710 * 2 ^ (-47)`
(the mantissa scaled value `41.8 * 2 ^ 47 = 5882827013252710.4` rounds
down). -/
theorem rne_418 : rnePos (209/5) = 5882827013252710 * pow2 (-47) := by
  have h := rnePos_eval (209/5) 209 5 5 5882827013252710 5882827013252710
    num_of_418 den_of_418
    (by rw [show nlog2 (209 : ℤ).natAbs = 7 by decide, show nlog2 5 = 2 by decide]
        norm_num [pow2])
    (by rw [Int.floor_eq_iff]
        norm_num [pow2])
    (by norm_num [pow2])
  rw [h]
  norm_num

/-- Exact representability: `42.0` is exactly representable in binary64. -/
theorem lit64_42 : lit64 42 = 42 := by
  have h := rnePos_eval 42 42 1 5 5910974510923776 5910974510923776 rfl rfl
    (by rw [show nlog2 (42 : ℤ).natAbs = 5 by decide, show nlog2 1 = 0 by decide]
        norm_num [pow2])
    (by rw [Int.floor_eq_iff]
        norm_num [pow2])
    (by norm_num [pow2])
  unfold lit64 rne
  rw [if_neg (by norm_num), if_neg (by norm_num), h]
  norm_num [pow2]

/-- Exact representability: `2.0` is exactly representable in binary64. -/
theorem lit64_2 : lit64 2 = 2 := by
  have h := rnePos_eval 2 2 1 1 4503599627370496 4503599627370496 rfl rfl
    (by rw [show nlog2 (2 : ℤ).natAbs = 1 by decide, show nlog2 1 = 0 by decide]
        norm_num [pow2])
    (by rw [Int.floor_eq_iff]
        norm_num [pow2])
    (by norm_num [pow2])
  unfold lit64 rne
  rw [if_neg (by norm_num), if_neg (by norm_num), h]
  norm_num [pow2]

/-- The `f64` literal `-41.8` denotes `-(5882827013252710 * 2 ^ (-47))`,
not `-209/5`: `41.8` is not representable in binary64. -/
theorem lit64_neg418 : lit64 (-209/5) = -(5882827013252710 * pow2 (-47)) := by
  unfold lit64 rne
  rw [if_neg (by norm_num), if_pos (by norm_num),
    show -((-209 : ℚ)/5) = 209/5 by norm_num, rne_418]

/-- The binary64 sum `42.0 + (-41.8)` : the subtraction is exact at this
scale, but it operates on the already-rounded `-41.8`, giving
`0.2000000000000028421…` rather than `1/5`. -/
theorem add64_demo : add64 (lit64 42) (lit64 (-209/5))
    = ((14073748835533 : ℤ) : ℚ) / ((70368744177664 : ℤ) : ℚ) := by
  rw [add64, lit64_42, lit64_neg418,
    show (42 : ℚ) + -(5882827013252710 * pow2 (-47))
        = ((14073748835533 : ℤ) : ℚ) / ((70368744177664 : ℤ) : ℚ) from by
      push_cast
      norm_num [pow2]]
  have hnum := Rat.num_div_eq_of_coprime
    (a := 14073748835533) (b := 70368744177664) (by norm_num) (by norm_num)
  have hden' := Rat.den_div_eq_of_coprime
    (a := 14073748835533) (b := 70368744177664) (by norm_num) (by norm_num)
  have hden : (((14073748835533 : ℤ) : ℚ) / ((70368744177664 : ℤ) : ℚ)).den
      = 70368744177664 := by exact_mod_cast hden'
  have h := rnePos_eval _ 14073748835533 70368744177664 (-3)
    7205759403792896 7205759403792896 hnum hden
    (by rw [show nlog2 (14073748835533 : ℤ).natAbs = 43 by decide,
          show nlog2 70368744177664 = 46 by decide]
        norm_num [pow2])
    (by rw [Int.floor_eq_iff]
        push_cast
        norm_num [pow2])
    (by push_cast
        norm_num [pow2])
  unfold rne
  rw [if_neg (by push_cast; norm_num), if_neg (by push_cast; norm_num), h]
  push_cast
  norm_num [pow2]

/-- The division by `2.0` is exact, so the demo's `observe()` returns the
binary64 value `14073748835533 * 2 ^ (-47) = 0.1000000000000014210854…`. -/
theorem demo_observe64_eval : demo_observe64
    = ((14073748835533 : ℤ) : ℚ) / ((140737488355328 : ℤ) : ℚ) := by
  rw [demo_observe64, div64, add64_demo, lit64_2,
    show ((14073748835533 : ℤ) : ℚ) / ((70368744177664 : ℤ) : ℚ) / 2
        = ((14073748835533 : ℤ) : ℚ) / ((140737488355328 : ℤ) : ℚ) from by
      push_cast
      norm_num]
  have hnum := Rat.num_div_eq_of_coprime
    (a := 14073748835533) (b := 140737488355328) (by norm_num) (by norm_num)
  have hden' := Rat.den_div_eq_of_coprime
    (a := 14073748835533) (b := 140737488355328) (by norm_num) (by norm_num)
  have hden : (((14073748835533 : ℤ) : ℚ) / ((140737488355328 : ℤ) : ℚ)).den
      = 140737488355328 := by exact_mod_cast hden'
  have h := rnePos_eval _ 14073748835533 140737488355328 (-4)
    7205759403792896 7205759403792896 hnum hden
    (by rw [show nlog2 (14073748835533 : ℤ).natAbs = 43 by decide,
          show nlog2 140737488355328 = 47 by decide]
        norm_num [pow2])
    (by rw [Int.floor_eq_iff]
        push_cast
        norm_num [pow2])
    (by push_cast
        norm_num [pow2])
  unfold rne
  rw [if_neg (by push_cast; norm_num), if_neg (by push_cast; norm_num), h]
  push_cast
  norm_num [pow2]

/-- The `f64` nearest to `0.1` is `3602879701896397 * 2 ^ (-55)`
(rounding `2 ^ 56 / 10 = 7205759403792793.6` up). -/
theorem lit64_tenth : lit64 (1/10)
    = ((3602879701896397 : ℤ) : ℚ) / ((36028797018963968 : ℤ) : ℚ) := by
  have heq : ((1 : ℚ)/10) = ((1 : ℤ) : ℚ) / ((10 : ℤ) : ℚ) := by norm_num
  have hnum : ((1 : ℚ)/10).num = 1 := by
    rw [heq, Rat.num_div_eq_of_coprime (by norm_num) (by norm_num)]
  have hden' := Rat.den_div_eq_of_coprime (a := 1) (b := 10) (by norm_num) (by norm_num)
  have hden : ((1 : ℚ)/10).den = 10 := by
    rw [heq]; exact_mod_cast hden'
  have h := rnePos_eval (1/10) 1 10 (-4) 7205759403792793 7205759403792794 hnum hden
    (by rw [show nlog2 (1 : ℤ).natAbs = 0 by decide, show nlog2 10 = 3 by decide]
        norm_num [pow2])
    (by rw [Int.floor_eq_iff]
        norm_num [pow2])
    (by norm_num [pow2])
  unfold lit64 rne
  rw [if_neg (by norm_num), if_neg (by norm_num), h]
  push_cast
  norm_num [pow2]

/-- C8 counterexample: the demo's first `observe()` does NOT return exactly
`0.1`.  Under binary64 arithmetic `41.8` rounds to
`5882827013252710 * 2 ^ (-47)`, so `(42.0 + -41.8) / 2.0` evaluates to
`14073748835533 * 2 ^ (-47) = 0.1000000000000014210854…`, which differs
both from the binary64 value of the literal `0.1` and from the exact
rational `1/10`. -/
theorem C8_not_exactly_tenth :
    demo_observe64 ≠ lit64 (1/10) ∧ demo_observe64 ≠ 1/10 := by
  rw [demo_observe64_eval, lit64_tenth]
  constructor
  · intro h
    have h2 : ((14073748835533 : ℤ) : ℚ) / ((140737488355328 : ℤ) : ℚ)
        = ((3602879701896397 : ℤ) : ℚ) / ((36028797018963968 : ℤ) : ℚ) := h
    rw [div_eq_div_iff (by push_cast; norm_num) (by push_cast; norm_num)] at h2
    push_cast at h2
    norm_num at h2
  · intro h
    rw [div_eq_div_iff (by push_cast; norm_num) (by norm_num)] at h
    push_cast at h
    norm_num at h

/-- C8 amended: at the demo inputs (`matter = 42.0`,
`antimatter = -41.8`), the first `observe()` call returns the binary64
value `14073748835533 / 2 ^ 47 = 0.1000000000000014210854…` — within
`2 * 10 ^ (-15)` of `0.1` but not exactly `0.1` — sets `observed` to
`true`, and a second call returns the same value and leaves the state
unchanged. -/
theorem C8_demo_observe :
    demo_observe64 = 14073748835533 / 140737488355328 ∧
    |demo_observe64 - 1/10| < 2 / 10 ^ 15 ∧
    ((QuasiState.new "iceberg_01" "energy" (lit64 42) (lit64 (-209/5))).observe).1.observed
        = true ∧
    ((QuasiState.new "iceberg_01" "energy" (lit64 42) (lit64 (-209/5))).observe).1.observe
        = (((QuasiState.new "iceberg_01" "energy" (lit64 42) (lit64 (-209/5))).observe).1,
           ((QuasiState.new "iceberg_01" "energy" (lit64 42) (lit64 (-209/5))).observe).2) := by
  refine ⟨?_, ?_, rfl, rfl⟩
  · rw [demo_observe64_eval]
    push_cast
    norm_num
  · rw [demo_observe64_eval, abs_sub_lt_iff]
    constructor
    · push_cast
      norm_num
    · push_cast
      norm_num

/-!
Full binary64 carrier.  The exact-rational carrier above is adequate for
the structural and arithmetic-shape claims, but two claims are about the
parts of `f64` it cannot see: NaN/infinity propagation, and overflow of
the coherence computation at large finite inputs.  The model below extends
the rounding model to the whole `f64` value set and re-embeds the source
over it.
-/

/-- Carrier of binary64 values: a finite value (as its exact rational
magnitude), the two infinities, and NaN.  The sign of zero is not
tracked: the source only ever feeds values through `+`, `-`, `abs`, `/`
and `==`-style use, and IEEE-754 comparison identifies `+0.0` and `-0.0`;
likewise a single NaN suffices because the source never inspects
payloads. -/
inductive F64 where
  | fin (q : ℚ)
  | posInf
  | negInf
  | nan
deriving DecidableEq, Repr

/-- Rounding of a non-overflowing exact result to binary64: magnitudes
below `2 ^ (-1022)` round on the fixed subnormal grid of multiples of
`2 ^ (-1074)`; other magnitudes round to 53 significant bits via `rne`. -/
def fin64 (q : ℚ) : ℚ :=
  if pow2 (-1022) ≤ q then rne q
  else if q ≤ -pow2 (-1022) then rne q
  else if q < 0 then -(rneAt (-q) (-1074))
  else rneAt q (-1074)

/-- IEEE-754 binary64 rounding of an exact rational result, with overflow:
round to nearest, ties to even; a result of magnitude at least
`2 ^ 1024 - 2 ^ 970` rounds to the corresponding infinity. -/
def round64 (q : ℚ) : F64 :=
  if q ≤ -(pow2 1024 - pow2 970) then F64.negInf
  else if pow2 1024 - pow2 970 ≤ q then F64.posInf
  else F64.fin (fin64 q)

/-- Negation of a binary64 value (always exact). -/
def F64.neg : F64 → F64
  | .fin q => .fin (-q)
  | .posInf => .negInf
  | .negInf => .posInf
  | .nan => .nan

/-- Absolute value of a binary64 value (`f64::abs`, always exact). -/
def F64.abs : F64 → F64
  | .fin q => .fin |q|
  | .posInf => .posInf
  | .negInf => .posInf
  | .nan => .nan

/-- IEEE-754 binary64 addition: NaN propagates, opposite infinities give
NaN, an infinity absorbs any finite value, and finite arguments are added
exactly and then rounded. -/
def F64.add : F64 → F64 → F64
  | .nan, _ => .nan
  | _, .nan => .nan
  | .posInf, .negInf => .nan
  | .negInf, .posInf => .nan
  | .posInf, _ => .posInf
  | _, .posInf => .posInf
  | .negInf, _ => .negInf
  | _, .negInf => .negInf
  | .fin a, .fin b => round64 (a + b)

/-- IEEE-754 binary64 subtraction: `a - b` is `a + (-b)` exactly. -/
def F64.sub (a b : F64) : F64 := F64.add a (F64.neg b)

/-- IEEE-754 binary64 division: NaN propagates, `inf / inf` and `0 / 0`
are NaN, `inf / finite` keeps a sign-adjusted infinity, `finite / inf` is
zero, `finite / 0` is a signed infinity, and finite arguments divide
exactly and then round.  (With the unsigned zero of this carrier the
divisor `0` is treated as `+0.0`.) -/
def F64.div : F64 → F64 → F64
  | .nan, _ => .nan
  | _, .nan => .nan
  | .posInf, .posInf => .nan
  | .posInf, .negInf => .nan
  | .negInf, .posInf => .nan
  | .negInf, .negInf => .nan
  | .posInf, .fin b => if b < 0 then .negInf else .posInf
  | .negInf, .fin b => if b < 0 then .posInf else .negInf
  | .fin _, .posInf => .fin 0
  | .fin _, .negInf => .fin 0
  | .fin a, .fin b =>
      if b = 0 then (if a = 0 then .nan else if a < 0 then .negInf else .posInf)
      else round64 (a / b)

/-- IEEE-754 `<=` on binary64 values: every comparison against NaN is
false. -/
def F64.isLe : F64 → F64 → Bool
  | .nan, _ => false
  | _, .nan => false
  | .negInf, _ => true
  | _, .negInf => false
  | _, .posInf => true
  | .posInf, _ => false
  | .fin a, .fin b => decide (a ≤ b)

/-- Mirror of `QToken` over the full binary64 carrier. -/
structure QTokenF where
  qtype : String
  value : F64
deriving DecidableEq, Repr

/-- Mirror of `QuasiField` over the full binary64 carrier. -/
structure QuasiFieldF where
  matter : QTokenF
  antimatter : QTokenF
  coherence : F64
deriving DecidableEq, Repr

/-- Mirror of `QuasiState` over the full binary64 carrier. -/
structure QuasiStateF where
  id : String
  field : QuasiFieldF
  observed : Bool
deriving DecidableEq, Repr

/-- Constructor `QuasiState::new` (quasi_core.rs lines 37-54) over the full
binary64 carrier: every `f64` operation of line 47 —
`1.0 - ((matter - antimatter).abs() / (matter.abs() + antimatter.abs() + 1.0))`
— is the corresponding IEEE-754 operation, in the source's evaluation
order. -/
def QuasiStateF.new (id qtype : String) (matter antimatter : F64) : QuasiStateF :=
  { id := id
    field :=
      { matter := { qtype := qtype, value := matter }
        antimatter := { qtype := qtype, value := antimatter }
        coherence :=
          F64.sub (F64.fin 1)
            (F64.div (F64.abs (F64.sub matter antimatter))
              (F64.add (F64.add (F64.abs matter) (F64.abs antimatter)) (F64.fin 1))) }
    observed := false }

/-- Method `QuasiState::observe` (lines 57-61) over the full binary64
carrier. -/
def QuasiStateF.observe (s : QuasiStateF) : QuasiStateF × F64 :=
  ({ s with observed := true },
    F64.div (F64.add s.field.matter.value s.field.antimatter.value) (F64.fin 2))

/-- Method `QuasiState::measure_coherence` (lines 64-66) over the full
binary64 carrier. -/
def QuasiStateF.measure_coherence (s : QuasiStateF) : F64 :=
  s.field.coherence

/-- Method `QuasiState::invert` (lines 69-71) over the full binary64
carrier. -/
def QuasiStateF.invert (s : QuasiStateF) : QuasiStateF :=
  { s with field := { s.field with matter := s.field.antimatter, antimatter := s.field.matter } }

/-- State tag of the `Display` impl (line 76) over the full binary64
carrier. -/
def QuasiStateF.obs_state (s : QuasiStateF) : String :=
  if s.observed then "Observed" else "Superposed"

/-- Effect of one call on a full-carrier state (returned values
discarded). -/
def QuasiStateF.step (s : QuasiStateF) : Op → QuasiStateF
  | Op.observe => (s.observe).1
  | Op.measure_coherence => s
  | Op.invert => s.invert
  | Op.render => s

/-- State after an arbitrary sequence of calls, full carrier. -/
def QuasiStateF.run (s : QuasiStateF) (ops : List Op) : QuasiStateF :=
  ops.foldl QuasiStateF.step s

/-- Largest finite binary64 value, `f64::MAX = (2 ^ 53 - 1) * 2 ^ 971`. -/
def maxF64 : ℚ := (2 ^ 53 - 1) * pow2 971

-- Correctness facts about the rounding model, needed to settle the
-- interval claim against the full binary64 carrier.

theorem pow2_pos (e : ℤ) : 0 < pow2 e := zpow_pos (by norm_num) e

theorem pow2_mul (a b : ℤ) : pow2 a * pow2 b = pow2 (a + b) :=
  (zpow_add₀ (by norm_num : (2 : ℚ) ≠ 0) a b).symm

theorem pow2_lt_pow2 {a b : ℤ} (h : a < b) : pow2 a < pow2 b :=
  zpow_lt_zpow_right₀ (by norm_num) h

theorem pow2_le_pow2 {a b : ℤ} (h : a ≤ b) : pow2 a ≤ pow2 b :=
  zpow_le_zpow_right₀ (by norm_num) h

theorem pow2_lt_pow2_iff {a b : ℤ} : pow2 a < pow2 b ↔ a < b :=
  zpow_lt_zpow_iff_right₀ (by norm_num)

theorem pow2_natCast (n : ℕ) : pow2 (n : ℤ) = (2 : ℚ) ^ n := zpow_natCast 2 n

theorem pow2_sub (a b : ℤ) : pow2 (a - b) = pow2 a / pow2 b := by
  rw [eq_div_iff (pow2_pos b).ne', pow2_mul, sub_add_cancel]

theorem nlog2Aux_bracket : ∀ (fuel n : ℕ), 1 ≤ n → n ≤ fuel →
    2 ^ nlog2Aux fuel n ≤ n ∧ n < 2 ^ (nlog2Aux fuel n + 1) := by
  intro fuel
  induction fuel with
  | zero => intro n h1 h2; exact absurd (le_trans h1 h2) (by norm_num)
  | succ f ih =>
      intro n h1 h2
      by_cases hn : n ≤ 1
      · have hone : n = 1 := le_antisymm hn h1
        subst hone
        simp [nlog2Aux]
      · have hrec := ih (n / 2) (by omega) (by omega)
        have hstep : nlog2Aux (f + 1) n = nlog2Aux f (n / 2) + 1 := by
          simp [nlog2Aux, hn]
        rw [hstep]
        obtain ⟨hlo, hhi⟩ := hrec
        have e1 : 2 ^ (nlog2Aux f (n / 2) + 1) = 2 * 2 ^ nlog2Aux f (n / 2) := by ring
        have e2 : 2 ^ (nlog2Aux f (n / 2) + 1 + 1) = 4 * 2 ^ nlog2Aux f (n / 2) := by ring
        omega

theorem nlog2_bracket (n : ℕ) (h : 1 ≤ n) :
    2 ^ nlog2 n ≤ n ∧ n < 2 ^ (nlog2 n + 1) :=
  nlog2Aux_bracket n n h le_rfl

theorem qexp_bracket (q : ℚ) (hq : 0 < q) :
    pow2 (qexp q) ≤ q ∧ q < pow2 (qexp q + 1) := by
  have hnum : 0 < q.num := Rat.num_pos.mpr hq
  have hden : 0 < q.den := q.den_pos
  have habs : (q.num.natAbs : ℤ) = q.num := Int.natAbs_of_nonneg hnum.le
  have hcast : ((q.num.natAbs : ℕ) : ℚ) = ((q.num : ℤ) : ℚ) := by
    rw [Nat.cast_natAbs]
    exact_mod_cast congrArg (fun z : ℤ => (z : ℚ)) (abs_of_nonneg hnum.le)
  have hq_eq : q = (q.num.natAbs : ℚ) / (q.den : ℚ) := by
    rw [hcast]
    exact (Rat.num_div_den q).symm
  have hbn := nlog2_bracket q.num.natAbs (by omega)
  have hbd := nlog2_bracket q.den hden
  set k := nlog2 q.num.natAbs with hk
  set l := nlog2 q.den with hl
  have hdenQ : (0 : ℚ) < (q.den : ℚ) := by exact_mod_cast hden
  have hAQ1 : ((2 : ℚ) ^ k) ≤ (q.num.natAbs : ℚ) := by exact_mod_cast hbn.1
  have hAQ2 : ((q.num.natAbs : ℕ) : ℚ) < (2 : ℚ) ^ (k + 1) := by exact_mod_cast hbn.2
  have hDQ1 : ((2 : ℚ) ^ l) ≤ (q.den : ℚ) := by exact_mod_cast hbd.1
  have hDQ2 : ((q.den : ℕ) : ℚ) < (2 : ℚ) ^ (l + 1) := by exact_mod_cast hbd.2
  have hupper : q < pow2 ((k : ℤ) - l + 1) := by
    have hpe : pow2 ((k : ℤ) - l + 1) = (2 : ℚ) ^ (k + 1) / (2 : ℚ) ^ l := by
      rw [show (k : ℤ) - l + 1 = ((k + 1 : ℕ) : ℤ) - ((l : ℕ) : ℤ) by push_cast; ring,
        pow2_sub, pow2_natCast, pow2_natCast]
    rw [hpe, hq_eq, div_lt_div_iff₀ hdenQ (by positivity)]
    have s1 : (q.num.natAbs : ℚ) * (2 : ℚ) ^ l < (2 : ℚ) ^ (k + 1) * (2 : ℚ) ^ l :=
      mul_lt_mul_of_pos_right hAQ2 (by positivity)
    have s2 : (2 : ℚ) ^ (k + 1) * (2 : ℚ) ^ l ≤ (2 : ℚ) ^ (k + 1) * (q.den : ℚ) :=
      mul_le_mul_of_nonneg_left hDQ1 (by positivity)
    exact s1.trans_le s2
  have hlower : pow2 ((k : ℤ) - l - 1) < q := by
    have hpe : pow2 ((k : ℤ) - l - 1) = (2 : ℚ) ^ k / (2 : ℚ) ^ (l + 1) := by
      rw [show (k : ℤ) - l - 1 = ((k : ℕ) : ℤ) - ((l + 1 : ℕ) : ℤ) by push_cast; ring,
        pow2_sub, pow2_natCast, pow2_natCast]
    rw [hpe, hq_eq, div_lt_div_iff₀ (by positivity) hdenQ]
    have s1 : (2 : ℚ) ^ k * (q.den : ℚ) < (2 : ℚ) ^ k * (2 : ℚ) ^ (l + 1) :=
      mul_lt_mul_of_pos_left hDQ2 (by positivity)
    have s2 : (2 : ℚ) ^ k * (2 : ℚ) ^ (l + 1) ≤ (q.num.natAbs : ℚ) * (2 : ℚ) ^ (l + 1) :=
      mul_le_mul_of_nonneg_right hAQ1 (by positivity)
    exact s1.trans_le s2
  unfold qexp
  rw [← hk, ← hl]
  by_cases hc : q < pow2 ((k : ℤ) - l)
  · rw [if_pos hc]
    exact ⟨hlower.le, by rw [show (k : ℤ) - l - 1 + 1 = (k : ℤ) - l by ring]; exact hc⟩
  · rw [if_neg hc]
    exact ⟨not_lt.mp hc, hupper⟩

theorem qexp_unique (q : ℚ) (e : ℤ) (hq : 0 < q)
    (h1 : pow2 e ≤ q) (h2 : q < pow2 (e + 1)) : qexp q = e := by
  obtain ⟨b1, b2⟩ := qexp_bracket q hq
  have c1 : qexp q < e + 1 := pow2_lt_pow2_iff.mp (lt_of_le_of_lt b1 h2)
  have c2 : e < qexp q + 1 := pow2_lt_pow2_iff.mp (lt_of_le_of_lt h1 b2)
  omega

theorem qexp_mono {q1 q2 : ℚ} (h1 : 0 < q1) (h : q1 ≤ q2) : qexp q1 ≤ qexp q2 := by
  obtain ⟨a1, _⟩ := qexp_bracket q1 h1
  obtain ⟨_, b2⟩ := qexp_bracket q2 (h1.trans_le h)
  have := pow2_lt_pow2_iff.mp (lt_of_le_of_lt (a1.trans h) b2)
  omega

theorem rInt_cases (m : ℚ) : rInt m = ⌊m⌋ ∨ rInt m = ⌊m⌋ + 1 := by
  unfold rInt
  split_ifs <;> simp

theorem rInt_close (m : ℚ) : |(rInt m : ℚ) - m| ≤ 1 / 2 := by
  have hfl : ((⌊m⌋ : ℤ) : ℚ) ≤ m := Int.floor_le m
  have hfl2 : m < ⌊m⌋ + 1 := Int.lt_floor_add_one m
  unfold rInt
  split_ifs with h1 h2 h3 <;> rw [abs_le] <;> constructor <;> push_cast <;> linarith

theorem rInt_intCast (n : ℤ) : rInt (n : ℚ) = n := by
  unfold rInt
  rw [Int.floor_intCast]
  norm_num

theorem rInt_mono {m1 m2 : ℚ} (h : m1 ≤ m2) : rInt m1 ≤ rInt m2 := by
  have hf : ⌊m1⌋ ≤ ⌊m2⌋ := Int.floor_le_floor h
  rcases eq_or_lt_of_le hf with heq | hlt
  · unfold rInt
    rw [← heq]
    split_ifs <;> first | omega | (exfalso; linarith)
  · have u1 : rInt m1 ≤ ⌊m1⌋ + 1 := by rcases rInt_cases m1 with h' | h' <;> omega
    have u2 : ⌊m2⌋ ≤ rInt m2 := by rcases rInt_cases m2 with h' | h' <;> omega
    omega

theorem rneAt_grid (N : ℤ) (k : ℤ) : rneAt ((N : ℚ) * pow2 k) k = (N : ℚ) * pow2 k := by
  unfold rneAt
  rw [mul_div_assoc, div_self (pow2_pos k).ne', mul_one, rInt_intCast]

theorem rneAt_mono {q1 q2 : ℚ} (k : ℤ) (h : q1 ≤ q2) : rneAt q1 k ≤ rneAt q2 k := by
  unfold rneAt
  have hd : q1 / pow2 k ≤ q2 / pow2 k :=
    div_le_div_of_nonneg_right h (pow2_pos k).le
  have hi : rInt (q1 / pow2 k) ≤ rInt (q2 / pow2 k) := rInt_mono hd
  exact mul_le_mul_of_nonneg_right (by exact_mod_cast hi) (pow2_pos k).le

theorem rneAt_le_grid {q : ℚ} {N : ℤ} (k : ℤ) (h : q ≤ (N : ℚ) * pow2 k) :
    rneAt q k ≤ (N : ℚ) * pow2 k := by
  have h2 := rneAt_mono k h
  rwa [rneAt_grid] at h2

theorem grid_le_rneAt {q : ℚ} {N : ℤ} (k : ℤ) (h : (N : ℚ) * pow2 k ≤ q) :
    (N : ℚ) * pow2 k ≤ rneAt q k := by
  have h2 := rneAt_mono k h
  rwa [rneAt_grid] at h2

theorem rneAt_nonneg {q : ℚ} (k : ℤ) (hq : 0 ≤ q) : 0 ≤ rneAt q k := by
  have h := grid_le_rneAt (N := 0) k (by simpa using hq)
  simpa using h

theorem rneAt_close (q : ℚ) (k : ℤ) : |rneAt q k - q| ≤ pow2 k / 2 := by
  have hp := pow2_pos k
  have hcl := abs_le.mp (rInt_close (q / pow2 k))
  have hq : q / pow2 k * pow2 k = q := div_mul_cancel₀ q hp.ne'
  unfold rneAt
  rw [abs_le]
  constructor
  · have := mul_le_mul_of_nonneg_right hcl.1 hp.le
    rw [sub_mul, hq] at this
    linarith
  · have := mul_le_mul_of_nonneg_right hcl.2 hp.le
    rw [sub_mul, hq] at this
    linarith

theorem pow2_grid_lo (e : ℤ) : ((2 ^ 52 : ℤ) : ℚ) * pow2 (e - 52) = pow2 e := by
  rw [show ((2 ^ 52 : ℤ) : ℚ) = pow2 ((52 : ℕ) : ℤ) by rw [pow2_natCast]; push_cast; ring,
    pow2_mul]
  congr 1
  ring

theorem pow2_grid_hi (e : ℤ) : ((2 ^ 53 : ℤ) : ℚ) * pow2 (e - 52) = pow2 (e + 1) := by
  rw [show ((2 ^ 53 : ℤ) : ℚ) = pow2 ((53 : ℕ) : ℤ) by rw [pow2_natCast]; push_cast; ring,
    pow2_mul]
  congr 1
  ring

theorem rnePos_bounds {q : ℚ} (hq : 0 < q) :
    pow2 (qexp q) ≤ rnePos q ∧ rnePos q ≤ pow2 (qexp q + 1) := by
  obtain ⟨b1, b2⟩ := qexp_bracket q hq
  unfold rnePos
  constructor
  · have hb : ((2 ^ 52 : ℤ) : ℚ) * pow2 (qexp q - 52) ≤ q := by
      rw [pow2_grid_lo]
      exact b1
    have h := grid_le_rneAt (qexp q - 52) hb
    rwa [pow2_grid_lo] at h
  · have hb : q ≤ ((2 ^ 53 : ℤ) : ℚ) * pow2 (qexp q - 52) := by
      rw [pow2_grid_hi]
      exact b2.le
    have h := rneAt_le_grid (qexp q - 52) hb
    rwa [pow2_grid_hi] at h

theorem rnePos_pos {q : ℚ} (hq : 0 < q) : 0 < rnePos q :=
  lt_of_lt_of_le (pow2_pos (qexp q)) (rnePos_bounds hq).1

theorem rnePos_mono {q1 q2 : ℚ} (h1 : 0 < q1) (h : q1 ≤ q2) : rnePos q1 ≤ rnePos q2 := by
  have he := qexp_mono h1 h
  rcases eq_or_lt_of_le he with heq | hlt
  · unfold rnePos
    rw [heq]
    exact rneAt_mono _ h
  · calc rnePos q1 ≤ pow2 (qexp q1 + 1) := (rnePos_bounds h1).2
      _ ≤ pow2 (qexp q2) := pow2_le_pow2 (by omega)
      _ ≤ rnePos q2 := (rnePos_bounds (h1.trans_le h)).1

theorem rnePos_fixed {M k : ℤ} (h52 : 2 ^ 52 ≤ M) (h53 : M < 2 ^ 53) :
    rnePos ((M : ℚ) * pow2 k) = (M : ℚ) * pow2 k := by
  have hMpos : (0 : ℚ) < (M : ℚ) := by
    have : (0 : ℤ) < M := lt_of_lt_of_le (by norm_num) h52
    exact_mod_cast this
  have hqpos : 0 < (M : ℚ) * pow2 k := mul_pos hMpos (pow2_pos k)
  have hlo : pow2 (k + 52) ≤ (M : ℚ) * pow2 k := by
    rw [← pow2_grid_lo (k + 52), show k + 52 - 52 = k by ring]
    exact mul_le_mul_of_nonneg_right (by exact_mod_cast h52) (pow2_pos k).le
  have hhi : (M : ℚ) * pow2 k < pow2 (k + 52 + 1) := by
    rw [← pow2_grid_hi (k + 52), show k + 52 - 52 = k by ring]
    exact mul_lt_mul_of_pos_right (by exact_mod_cast h53) (pow2_pos k)
  have he : qexp ((M : ℚ) * pow2 k) = k + 52 := qexp_unique _ _ hqpos hlo hhi
  unfold rnePos
  rw [he, show k + 52 - 52 = k by ring, rneAt_grid]

theorem rnePos_shape {q : ℚ} (hq : 0 < q) :
    ∃ M : ℤ, 2 ^ 52 ≤ M ∧ M ≤ 2 ^ 53 ∧ rnePos q = (M : ℚ) * pow2 (qexp q - 52) := by
  obtain ⟨b1, b2⟩ := qexp_bracket q hq
  have hup : (0 : ℚ) < pow2 (qexp q - 52) := pow2_pos _
  have hm1 : ((2 ^ 52 : ℤ) : ℚ) ≤ q / pow2 (qexp q - 52) := by
    rw [le_div_iff₀ hup, pow2_grid_lo]
    exact b1
  have hm2 : q / pow2 (qexp q - 52) < ((2 ^ 53 : ℤ) : ℚ) := by
    rw [div_lt_iff₀ hup, pow2_grid_hi]
    exact b2
  refine ⟨rInt (q / pow2 (qexp q - 52)), ?_, ?_, rfl⟩
  · have hfl : (2 ^ 52 : ℤ) ≤ ⌊q / pow2 (qexp q - 52)⌋ := Int.le_floor.mpr hm1
    rcases rInt_cases (q / pow2 (qexp q - 52)) with h' | h' <;> omega
  · have hfl : ⌊q / pow2 (qexp q - 52)⌋ < (2 ^ 53 : ℤ) := Int.floor_lt.mpr hm2
    rcases rInt_cases (q / pow2 (qexp q - 52)) with h' | h' <;> omega

theorem rne_of_nonneg {q : ℚ} (hq : 0 ≤ q) :
    rne q = if q = 0 then 0 else rnePos q := by
  unfold rne
  rcases eq_or_lt_of_le hq with h | h
  · rw [if_pos h.symm, if_pos h.symm]
  · rw [if_neg h.ne', if_neg (not_lt.mpr hq), if_neg h.ne']

theorem rne_nonneg {q : ℚ} (hq : 0 ≤ q) : 0 ≤ rne q := by
  rw [rne_of_nonneg hq]
  split_ifs with h
  · exact le_refl 0
  · exact (rnePos_pos (lt_of_le_of_ne hq (Ne.symm h))).le

theorem rne_mono {q1 q2 : ℚ} (h1 : 0 ≤ q1) (h : q1 ≤ q2) : rne q1 ≤ rne q2 := by
  rw [rne_of_nonneg h1, rne_of_nonneg (h1.trans h)]
  split_ifs with ha hb hb
  · exact le_refl 0
  · exact (rnePos_pos (lt_of_le_of_ne (h1.trans h) (Ne.symm hb))).le
  · exact absurd (le_antisymm (hb ▸ h) h1) ha
  · exact rnePos_mono (lt_of_le_of_ne h1 (Ne.symm ha)) h

theorem rne_grid_fixed {M k : ℤ} (h52 : 2 ^ 52 ≤ M) (h53 : M ≤ 2 ^ 53) :
    rne ((M : ℚ) * pow2 k) = (M : ℚ) * pow2 k := by
  have hMpos : (0 : ℚ) < (M : ℚ) := by
    have hz : (0 : ℤ) < M := lt_of_lt_of_le (by norm_num) h52
    exact_mod_cast hz
  have hqpos : 0 < (M : ℚ) * pow2 k := mul_pos hMpos (pow2_pos k)
  rw [rne_of_nonneg hqpos.le, if_neg hqpos.ne']
  rcases lt_or_eq_of_le h53 with hlt | heq
  · exact rnePos_fixed h52 hlt
  · have h2 : pow2 (k + 1) = pow2 k * 2 := by
      rw [← pow2_mul k 1, show pow2 1 = (2 : ℚ) by norm_num [pow2]]
    have hrw : (M : ℚ) * pow2 k = ((2 ^ 52 : ℤ) : ℚ) * pow2 (k + 1) := by
      rw [heq, h2]
      push_cast
      ring
    rw [hrw, rnePos_fixed (by norm_num) (by norm_num)]

theorem rne_one : rne 1 = 1 := by
  have h1 : ((2 ^ 52 : ℤ) : ℚ) * pow2 (-52) = 1 := by
    rw [show (-52 : ℤ) = 0 - 52 by ring, pow2_grid_lo (0 : ℤ)]
    norm_num [pow2]
  calc rne 1 = rne (((2 ^ 52 : ℤ) : ℚ) * pow2 (-52)) := by rw [h1]
    _ = ((2 ^ 52 : ℤ) : ℚ) * pow2 (-52) := rne_grid_fixed (by norm_num) (by norm_num)
    _ = 1 := h1

theorem pow2_neg1022_grid : ((2 ^ 52 : ℤ) : ℚ) * pow2 (-1074) = pow2 (-1022) := by
  rw [show (-1074 : ℤ) = -1022 - 52 by ring, pow2_grid_lo]

theorem pow2_neg1022_le_one : pow2 (-1022) ≤ (1 : ℚ) := by
  calc pow2 (-1022) ≤ pow2 0 := pow2_le_pow2 (by norm_num)
    _ = 1 := by norm_num [pow2]

theorem fin64_of_nonneg {q : ℚ} (hq : 0 ≤ q) :
    fin64 q = if pow2 (-1022) ≤ q then rne q else rneAt q (-1074) := by
  unfold fin64
  by_cases h : pow2 (-1022) ≤ q
  · rw [if_pos h, if_pos h]
  · have hneg : ¬ (q ≤ -pow2 (-1022)) :=
      not_le.mpr (lt_of_lt_of_le (neg_lt_zero.mpr (pow2_pos _)) hq)
    rw [if_neg h, if_neg hneg, if_neg (not_lt.mpr hq), if_neg h]

theorem fin64_nonneg {q : ℚ} (hq : 0 ≤ q) : 0 ≤ fin64 q := by
  rw [fin64_of_nonneg hq]
  split_ifs
  · exact rne_nonneg hq
  · exact rneAt_nonneg _ hq

theorem fin64_zero : fin64 0 = 0 := by
  have h := rneAt_grid 0 (-1074)
  norm_num at h
  rw [fin64_of_nonneg le_rfl, if_neg (not_le.mpr (pow2_pos _))]
  exact h

theorem fin64_mono {q1 q2 : ℚ} (h1 : 0 ≤ q1) (h : q1 ≤ q2) : fin64 q1 ≤ fin64 q2 := by
  rw [fin64_of_nonneg h1, fin64_of_nonneg (h1.trans h)]
  split_ifs with ha hb hb
  · exact rne_mono h1 h
  · exact absurd (ha.trans h) hb
  · have s1 : rneAt q1 (-1074) ≤ pow2 (-1022) := by
      have hgr := rneAt_le_grid (q := q1) (N := 2 ^ 52) (-1074 : ℤ)
        (by rw [pow2_neg1022_grid]; exact (not_le.mp ha).le)
      rwa [pow2_neg1022_grid] at hgr
    have hfix : rne (pow2 (-1022)) = pow2 (-1022) := by
      have hg := rne_grid_fixed (M := 2 ^ 52) (k := -1074) (by norm_num) (by norm_num)
      rwa [pow2_neg1022_grid] at hg
    have s2 : pow2 (-1022) ≤ rne q2 := by
      calc pow2 (-1022) = rne (pow2 (-1022)) := hfix.symm
        _ ≤ rne q2 := rne_mono (pow2_pos _).le hb
    exact s1.trans s2
  · exact rneAt_mono _ h

theorem fin64_one : fin64 1 = 1 := by
  rw [fin64_of_nonneg zero_le_one, if_pos pow2_neg1022_le_one, rne_one]

theorem fin64_le_one {q : ℚ} (h0 : 0 ≤ q) (h1 : q ≤ 1) : fin64 q ≤ 1 := by
  have h := fin64_mono h0 h1
  rwa [fin64_one] at h

theorem fin64_output_shape {s : ℚ} (hs : 0 ≤ s) :
    fin64 s ≤ 1 ∨ ∃ M k : ℤ, 2 ^ 52 ≤ M ∧ M ≤ 2 ^ 53 ∧ fin64 s = (M : ℚ) * pow2 k := by
  rw [fin64_of_nonneg hs]
  split_ifs with h
  · have hspos : 0 < s := lt_of_lt_of_le (pow2_pos _) h
    right
    rw [rne_of_nonneg hs, if_neg hspos.ne']
    obtain ⟨M, hM1, hM2, hM3⟩ := rnePos_shape hspos
    exact ⟨M, qexp s - 52, hM1, hM2, hM3⟩
  · left
    have hgr := rneAt_le_grid (q := s) (N := 2 ^ 52) (-1074 : ℤ)
      (by rw [pow2_neg1022_grid]; exact (not_le.mp h).le)
    rw [pow2_neg1022_grid] at hgr
    exact hgr.trans pow2_neg1022_le_one

theorem le_fin64_add_one {t : ℚ} (ht : 0 ≤ t)
    (hsh : t ≤ 1 ∨ ∃ M k : ℤ, 2 ^ 52 ≤ M ∧ M ≤ 2 ^ 53 ∧ t = (M : ℚ) * pow2 k) :
    t ≤ fin64 (t + 1) := by
  have hmono1 : fin64 1 ≤ fin64 (t + 1) := fin64_mono zero_le_one (by linarith)
  rcases hsh with hle | ⟨M, k, hM1, hM2, heq⟩
  · calc t ≤ 1 := hle
      _ = fin64 1 := fin64_one.symm
      _ ≤ fin64 (t + 1) := hmono1
  · rcases le_or_lt t 1 with hle | hgt
    · calc t ≤ 1 := hle
        _ = fin64 1 := fin64_one.symm
        _ ≤ fin64 (t + 1) := hmono1
    · have hnorm : pow2 (-1022) ≤ t := pow2_neg1022_le_one.trans hgt.le
      have hfix : fin64 t = t := by
        rw [fin64_of_nonneg ht, if_pos hnorm, heq]
        exact rne_grid_fixed hM1 hM2
      calc t = fin64 t := hfix.symm
        _ ≤ fin64 (t + 1) := fin64_mono ht (by linarith)

theorem fin64_neg (q : ℚ) : fin64 (-q) = -fin64 q := by
  have key : ∀ p : ℚ, 0 < p → fin64 (-p) = -fin64 p := by
    intro p hp
    have hnp : (-p : ℚ) < 0 := neg_lt_zero.mpr hp
    rw [fin64_of_nonneg hp.le]
    unfold fin64
    rw [if_neg (not_le.mpr (lt_of_lt_of_le hnp (pow2_pos _).le))]
    by_cases h : pow2 (-1022) ≤ p
    · rw [if_pos (by linarith : -p ≤ -pow2 (-1022)), if_pos h]
      unfold rne
      rw [if_neg (neg_ne_zero.mpr hp.ne'), if_pos hnp, neg_neg,
        if_neg hp.ne', if_neg (not_lt.mpr hp.le)]
    · rw [if_neg (by push_neg; linarith [not_le.mp h] : ¬ (-p ≤ -pow2 (-1022))),
        if_pos hnp, neg_neg, if_neg h]
  rcases lt_trichotomy q 0 with hneg | hzero | hpos
  · have h := key (-q) (neg_pos.mpr hneg)
    rw [neg_neg] at h
    linarith [h]
  · subst hzero
    rw [neg_zero, fin64_zero, neg_zero]
  · exact key q hpos

theorem abs_fin64 (x : ℚ) : |fin64 x| = fin64 |x| := by
  rcases le_or_lt 0 x with h | h
  · rw [abs_of_nonneg h, abs_of_nonneg (fin64_nonneg h)]
  · have hx : (0 : ℚ) ≤ -x := by linarith
    have h1 : fin64 x = -fin64 (-x) := by rw [← fin64_neg, neg_neg]
    rw [abs_of_neg h, h1, abs_neg, abs_of_nonneg (fin64_nonneg hx)]

theorem round64_eq_fin {q : ℚ} (h : |q| < pow2 1024 - pow2 970) :
    round64 q = F64.fin (fin64 q) := by
  obtain ⟨hl, hr⟩ := abs_lt.mp h
  unfold round64
  rw [if_neg (not_le.mpr (by linarith)), if_neg (not_le.mpr hr)]

theorem pow1023_lt_thr : pow2 1023 < pow2 1024 - pow2 970 := by
  have h1 : pow2 970 < pow2 1023 := pow2_lt_pow2 (by norm_num)
  have h2 : pow2 1023 + pow2 1023 = pow2 1024 := by
    rw [show (1024 : ℤ) = 1023 + 1 by ring, ← pow2_mul 1023 1,
      show pow2 1 = (2 : ℚ) by norm_num [pow2]]
    ring
  linarith

theorem stepF_coherence (s : QuasiStateF) (op : Op) :
    (s.step op).field.coherence = s.field.coherence := by
  cases op <;> rfl

theorem runF_coherence (ops : List Op) (s : QuasiStateF) :
    (s.run ops).field.coherence = s.field.coherence := by
  induction ops generalizing s with
  | nil => rfl
  | cons op ops ih =>
      show ((s.step op).run ops).field.coherence = s.field.coherence
      rw [ih, stepF_coherence]

theorem pow2_double (e : ℤ) : pow2 e + pow2 e = pow2 (e + 1) := by
  rw [← pow2_mul e 1, show pow2 1 = (2 : ℚ) by norm_num [pow2]]
  ring

theorem one_lt_thr : (1 : ℚ) < pow2 1024 - pow2 970 := by
  have h1 : (1 : ℚ) = pow2 0 := by norm_num [pow2]
  have h2 : pow2 0 ≤ pow2 1023 := pow2_le_pow2 (by norm_num)
  linarith [pow1023_lt_thr]

/-- Interval bound for the binary64 coherence computation: when both
magnitudes are at most `2 ^ 1022`, no intermediate of
`1.0 - ((a - b).abs() / (a.abs() + b.abs() + 1.0))` overflows, and the
final binary64 result is a finite value in `[0, 1]`. -/
theorem coherence_expr_interval {a b : ℚ} (ha : |a| ≤ pow2 1022) (hb : |b| ≤ pow2 1022) :
    ∃ c : ℚ, 0 ≤ c ∧ c ≤ 1 ∧
      F64.sub (F64.fin 1)
        (F64.div (F64.abs (F64.sub (F64.fin a) (F64.fin b)))
          (F64.add (F64.add (F64.abs (F64.fin a)) (F64.abs (F64.fin b))) (F64.fin 1)))
        = F64.fin c := by
  have h1022 : pow2 1022 + pow2 1022 = pow2 1023 := pow2_double 1022
  have htri : |a - b| ≤ |a| + |b| := by
    simpa [sub_eq_add_neg, abs_neg] using abs_add a (-b)
  have hsv : |a| + |b| ≤ pow2 1023 := by linarith [add_le_add ha hb]
  have hsub_thr : |a - b| < pow2 1024 - pow2 970 :=
    lt_of_le_of_lt (htri.trans hsv) pow1023_lt_thr
  have hsubF : F64.sub (F64.fin a) (F64.fin b) = F64.fin (fin64 (a - b)) := by
    show round64 (a + -b) = F64.fin (fin64 (a - b))
    rw [← sub_eq_add_neg]
    exact round64_eq_fin hsub_thr
  have habsF : F64.abs (F64.sub (F64.fin a) (F64.fin b)) = F64.fin (fin64 |a - b|) := by
    rw [hsubF]
    show F64.fin |fin64 (a - b)| = F64.fin (fin64 |a - b|)
    rw [abs_fin64]
  have hd1_0 : 0 ≤ fin64 |a - b| := fin64_nonneg (abs_nonneg _)
  have hs0 : (0 : ℚ) ≤ |a| + |b| := by positivity
  have hsum_thr : |(|a| + |b|)| < pow2 1024 - pow2 970 := by
    rw [abs_of_nonneg hs0]
    exact lt_of_le_of_lt hsv pow1023_lt_thr
  have haddF : F64.add (F64.abs (F64.fin a)) (F64.abs (F64.fin b))
      = F64.fin (fin64 (|a| + |b|)) := by
    show round64 (|a| + |b|) = F64.fin (fin64 (|a| + |b|))
    exact round64_eq_fin hsum_thr
  have ht0 : 0 ≤ fin64 (|a| + |b|) := fin64_nonneg hs0
  have ht_le : fin64 (|a| + |b|) ≤ pow2 1023 := by
    have hfix : fin64 (pow2 1023) = pow2 1023 := by
      rw [fin64_of_nonneg (pow2_pos _).le, if_pos (pow2_le_pow2 (by norm_num))]
      have hg := rne_grid_fixed (M := 2 ^ 52) (k := 971) (by norm_num) (by norm_num)
      rwa [show (971 : ℤ) = 1023 - 52 by ring, pow2_grid_lo] at hg
    calc fin64 (|a| + |b|) ≤ fin64 (pow2 1023) := fin64_mono hs0 hsv
      _ = pow2 1023 := hfix
  have hsmall : (1 : ℚ) ≤ pow2 970 := by
    have h1 : (1 : ℚ) = pow2 0 := by norm_num [pow2]
    have h2 : pow2 0 ≤ pow2 970 := pow2_le_pow2 (by norm_num)
    linarith
  have ht1_thr : |(fin64 (|a| + |b|) + 1)| < pow2 1024 - pow2 970 := by
    rw [abs_of_nonneg (by linarith)]
    have e1 : pow2 970 + pow2 970 = pow2 971 := pow2_double 970
    have e2 : pow2 1023 + pow2 1023 = pow2 1024 := pow2_double 1023
    have e3 : pow2 971 < pow2 1023 := pow2_lt_pow2 (by norm_num)
    linarith
  have hd2F : F64.add (F64.fin (fin64 (|a| + |b|))) (F64.fin 1)
      = F64.fin (fin64 (fin64 (|a| + |b|) + 1)) := by
    show round64 (fin64 (|a| + |b|) + 1) = F64.fin (fin64 (fin64 (|a| + |b|) + 1))
    exact round64_eq_fin ht1_thr
  have hd2_1 : 1 ≤ fin64 (fin64 (|a| + |b|) + 1) := by
    have h := fin64_mono zero_le_one (by linarith : (1 : ℚ) ≤ fin64 (|a| + |b|) + 1)
    rwa [fin64_one] at h
  have hd1_le_t : fin64 |a - b| ≤ fin64 (|a| + |b|) := fin64_mono (abs_nonneg _) (htri.trans (le_refl _))
  have ht_le_d2 : fin64 (|a| + |b|) ≤ fin64 (fin64 (|a| + |b|) + 1) :=
    le_fin64_add_one ht0 (fin64_output_shape hs0)
  have hd1_le_d2 : fin64 |a - b| ≤ fin64 (fin64 (|a| + |b|) + 1) := hd1_le_t.trans ht_le_d2
  have hd2_pos : (0 : ℚ) < fin64 (fin64 (|a| + |b|) + 1) := by linarith
  have hratio0 : 0 ≤ fin64 |a - b| / fin64 (fin64 (|a| + |b|) + 1) :=
    div_nonneg hd1_0 hd2_pos.le
  have hratio1 : fin64 |a - b| / fin64 (fin64 (|a| + |b|) + 1) ≤ 1 :=
    (div_le_one hd2_pos).mpr hd1_le_d2
  have hr_thr : |(fin64 |a - b| / fin64 (fin64 (|a| + |b|) + 1))| < pow2 1024 - pow2 970 := by
    rw [abs_of_nonneg hratio0]
    linarith [one_lt_thr]
  have hdivF : F64.div (F64.fin (fin64 |a - b|)) (F64.fin (fin64 (fin64 (|a| + |b|) + 1)))
      = F64.fin (fin64 (fin64 |a - b| / fin64 (fin64 (|a| + |b|) + 1))) := by
    show (if fin64 (fin64 (|a| + |b|) + 1) = 0 then _ else
        round64 (fin64 |a - b| / fin64 (fin64 (|a| + |b|) + 1))) = _
    rw [if_neg hd2_pos.ne', round64_eq_fin hr_thr]
  have hr0 : 0 ≤ fin64 (fin64 |a - b| / fin64 (fin64 (|a| + |b|) + 1)) :=
    fin64_nonneg hratio0
  have hr1 : fin64 (fin64 |a - b| / fin64 (fin64 (|a| + |b|) + 1)) ≤ 1 :=
    fin64_le_one hratio0 hratio1
  have h1r_thr : |(1 - fin64 (fin64 |a - b| / fin64 (fin64 (|a| + |b|) + 1)))|
      < pow2 1024 - pow2 970 := by
    rw [abs_of_nonneg (by linarith)]
    linarith [one_lt_thr]
  have hfinal : F64.sub (F64.fin 1)
      (F64.fin (fin64 (fin64 |a - b| / fin64 (fin64 (|a| + |b|) + 1))))
      = F64.fin (fin64 (1 - fin64 (fin64 |a - b| / fin64 (fin64 (|a| + |b|) + 1)))) := by
    show round64 (1 + -(fin64 (fin64 |a - b| / fin64 (fin64 (|a| + |b|) + 1)))) = _
    rw [← sub_eq_add_neg]
    exact round64_eq_fin h1r_thr
  refine ⟨fin64 (1 - fin64 (fin64 |a - b| / fin64 (fin64 (|a| + |b|) + 1))),
    fin64_nonneg (by linarith), fin64_le_one (by linarith) (by linarith), ?_⟩
  rw [habsF, haddF, hd2F, hdivF, hfinal]

/-- C2 counterexample: the claimed [0, 1] bound fails at finite inputs.
At `matter = f64::MAX` and `antimatter = -f64::MAX` (both finite binary64
values) the difference and the sum of magnitudes both overflow to
`+inf`, the ratio is `inf / inf = NaN`, and the stored coherence is NaN —
in particular the IEEE comparison `0.0 <= coherence` is false. -/
theorem C2_nan_at_max :
    (QuasiStateF.new "iceberg_01" "energy" (F64.fin maxF64)
        (F64.fin (-maxF64))).field.coherence = F64.nan ∧
    F64.isLe (F64.fin 0)
      ((QuasiStateF.new "iceberg_01" "energy" (F64.fin maxF64)
          (F64.fin (-maxF64))).field.coherence) = false := by
  have hmax0 : (0 : ℚ) ≤ maxF64 := by
    unfold maxF64
    exact mul_nonneg (by norm_num) (pow2_pos 971).le
  have hover : round64 (maxF64 + maxF64) = F64.posInf := by
    unfold round64
    rw [if_neg (by norm_num [maxF64, pow2]), if_pos (by norm_num [maxF64, pow2])]
  have h1 : F64.sub (F64.fin maxF64) (F64.fin (-maxF64)) = F64.posInf := by
    show round64 (maxF64 + -(-maxF64)) = F64.posInf
    rw [neg_neg]
    exact hover
  have habs1 : F64.abs (F64.fin maxF64) = F64.fin maxF64 := by
    show F64.fin |maxF64| = F64.fin maxF64
    rw [abs_of_nonneg hmax0]
  have habs2 : F64.abs (F64.fin (-maxF64)) = F64.fin maxF64 := by
    show F64.fin |(-maxF64)| = F64.fin maxF64
    rw [abs_neg, abs_of_nonneg hmax0]
  have h3 : F64.add (F64.add (F64.abs (F64.fin maxF64)) (F64.abs (F64.fin (-maxF64))))
      (F64.fin 1) = F64.posInf := by
    rw [habs1, habs2]
    have hin : F64.add (F64.fin maxF64) (F64.fin maxF64) = F64.posInf := hover
    rw [hin]
    rfl
  have hcoh : (QuasiStateF.new "iceberg_01" "energy" (F64.fin maxF64)
      (F64.fin (-maxF64))).field.coherence = F64.nan := by
    show F64.sub (F64.fin 1)
        (F64.div (F64.abs (F64.sub (F64.fin maxF64) (F64.fin (-maxF64))))
          (F64.add (F64.add (F64.abs (F64.fin maxF64)) (F64.abs (F64.fin (-maxF64))))
            (F64.fin 1))) = F64.nan
    rw [h1, h3]
    rfl
  exact ⟨hcoh, by rw [hcoh]; rfl⟩

/-- C2 amended: for every state constructed from magnitudes of absolute
value at most `2 ^ 1022` (a sufficient condition for the coherence
computation not to overflow binary64), the stored coherence is a finite
binary64 value in the closed interval [0, 1], and after any sequence of
observe / measure_coherence / invert / render calls the stored coherence
is still exactly the constructed one. -/
theorem C2_coherence_interval_f64 (id label : String) (a b : ℚ) (ops : List Op)
    (ha : |a| ≤ pow2 1022) (hb : |b| ≤ pow2 1022) :
    ∃ c : ℚ,
      ((QuasiStateF.new id label (F64.fin a) (F64.fin b)).run ops).field.coherence
          = F64.fin c ∧
      0 ≤ c ∧ c ≤ 1 ∧
      ((QuasiStateF.new id label (F64.fin a) (F64.fin b)).run ops).field.coherence
          = (QuasiStateF.new id label (F64.fin a) (F64.fin b)).field.coherence := by
  obtain ⟨c, hc0, hc1, hcoh⟩ := coherence_expr_interval ha hb
  refine ⟨c, ?_, hc0, hc1, runF_coherence ops _⟩
  rw [runF_coherence]
  show F64.sub (F64.fin 1)
      (F64.div (F64.abs (F64.sub (F64.fin a) (F64.fin b)))
        (F64.add (F64.add (F64.abs (F64.fin a)) (F64.abs (F64.fin b))) (F64.fin 1)))
      = F64.fin c
  exact hcoh

/-- C2 witness: the amended theorem at the demo's concrete inputs with a
nonempty call sequence. -/
theorem C2_coherence_interval_f64_witness :
    ∃ c : ℚ,
      ((QuasiStateF.new "iceberg_01" "energy" (F64.fin 42) (F64.fin (-209/5))).run
          [Op.invert, Op.observe]).field.coherence = F64.fin c ∧
      0 ≤ c ∧ c ≤ 1 ∧
      ((QuasiStateF.new "iceberg_01" "energy" (F64.fin 42) (F64.fin (-209/5))).run
          [Op.invert, Op.observe]).field.coherence
        = (QuasiStateF.new "iceberg_01" "energy" (F64.fin 42)
            (F64.fin (-209/5))).field.coherence :=
  C2_coherence_interval_f64 "iceberg_01" "energy" 42 (-209/5) [Op.invert, Op.observe]
    (by rw [abs_of_nonneg (by norm_num : (0 : ℚ) ≤ 42)]
        norm_num [pow2])
    (by rw [abs_of_nonpos (by norm_num : (-209/5 : ℚ) ≤ 0)]
        norm_num [pow2])

/-- C7: every operation is a total function on the full binary64 domain —
each has the unconditional closed form below, with no precondition, error
branch, panic or failure case — and non-finite inputs simply propagate
through the arithmetic per IEEE-754: a NaN magnitude on either side makes
the stored coherence and the observed mean NaN, and an infinite magnitude
makes the observed mean the same infinity while the coherence becomes NaN
(from `inf / inf`). -/
theorem C7_total_operations_f64 (id label : String) (a b x : F64) (q : ℚ)
    (s : QuasiStateF) :
    QuasiStateF.new id label a b
        = ⟨id, ⟨⟨label, a⟩, ⟨label, b⟩,
            F64.sub (F64.fin 1)
              (F64.div (F64.abs (F64.sub a b))
                (F64.add (F64.add (F64.abs a) (F64.abs b)) (F64.fin 1)))⟩, false⟩ ∧
    s.observe = (⟨s.id, s.field, true⟩,
        F64.div (F64.add s.field.matter.value s.field.antimatter.value) (F64.fin 2)) ∧
    s.measure_coherence = s.field.coherence ∧
    s.invert = ⟨s.id, ⟨s.field.antimatter, s.field.matter, s.field.coherence⟩, s.observed⟩ ∧
    s.obs_state = (if s.observed then "Observed" else "Superposed") ∧
    (QuasiStateF.new id label F64.nan x).field.coherence = F64.nan ∧
    ((QuasiStateF.new id label F64.nan x).observe).2 = F64.nan ∧
    (QuasiStateF.new id label x F64.nan).field.coherence = F64.nan ∧
    ((QuasiStateF.new id label x F64.nan).observe).2 = F64.nan ∧
    (QuasiStateF.new id label F64.posInf (F64.fin q)).field.coherence = F64.nan ∧
    ((QuasiStateF.new id label F64.posInf (F64.fin q)).observe).2 = F64.posInf := by
  refine ⟨rfl, rfl, rfl, rfl, rfl, ?_, ?_, ?_, ?_, ?_, ?_⟩
  · cases x <;> rfl
  · cases x <;> rfl
  · cases x <;> rfl
  · cases x <;> rfl
  · rfl
  · show F64.div (F64.add F64.posInf (F64.fin q)) (F64.fin 2) = F64.posInf
    show (if (2 : ℚ) < 0 then F64.negInf else F64.posInf) = F64.posInf
    rw [if_neg (by norm_num)]
